import Mathlib

/-!
Verification of the tool aggregation, selection, schema-adaptation and dispatch
engine of the apify-mcp repository.  JavaScript strings are modelled as lists
of characters (`Str`), JavaScript `Map`s as insertion-ordered association
lists, and the asynchronous remote-job API as an explicit event trace.
-/

namespace ApifyMcp

abbrev Str := List Char

/-- Character-wise replacement, the semantics of JavaScript
`s.replace(/c/g, replacement)` for a single-character pattern `c`. -/
def replaceChar (target : Char) (replacement : Str) : Str → Str
  | [] => []
  | c :: rest => (if c = target then replacement else [c]) ++ replaceChar target replacement rest

/-- The characters of the replacement text '-slash-'. -/
def slashToken : Str := ['-', 's', 'l', 'a', 's', 'h', '-']

/-- The characters of the placeholder token '-dot-'. -/
def dotToken : Str := ['-', 'd', 'o', 't', '-']

/-- Embeds `actorNameToToolName` (tools/utils): replace every '/' with
'-slash-', then every '.' with '-dot-', then truncate to 64 characters. -/
def actorNameToToolName (actorName : Str) : Str :=
  (replaceChar '.' dotToken (replaceChar '/' slashToken actorName)).take 64

/-- Embeds the key transformation of `encodeDotPropertyNames` (tools/utils):
JavaScript `key.replace(/\./g, '-dot-')`. -/
def encodeDotPropertyName (key : Str) : Str :=
  replaceChar '.' dotToken key

/-- Embeds the key transformation of `decodeDotPropertyNames` (tools/utils):
JavaScript `key.replace(/-dot-/g, '.')`, i.e. a left-to-right scan replacing
each non-overlapping occurrence of the five-character token '-dot-' by '.'. -/
def decodeDotPropertyName : Str → Str
  | '-' :: 'd' :: 'o' :: 't' :: '-' :: rest => '.' :: decodeDotPropertyName rest
  | c :: rest => c :: decodeDotPropertyName rest
  | [] => []

/-- Tool kinds of the tagged-union `ToolEntry` (types.ts): an in-process
internal tool, a concrete Actor-backed tool, or a tool proxied from a
downstream Actor MCP server. -/
inductive ToolType
  | internal
  | actor
  | actorMcp
deriving DecidableEq

/-- The fields of a tool entry that the selection, registry and dispatch
algorithms inspect: the kind tag, the locally-exposed name, and (for
actor-backed and some internal tools) the fully-qualified Actor name. -/
structure ToolEntry where
  type : ToolType
  name : String
  actorFullName : Option String := none
deriving DecidableEq

def addTool : ToolEntry := ⟨.internal, "add-actor", none⟩

def callActor : ToolEntry := ⟨.internal, "call-actor", some "call-actor"⟩

def fetchActorDetailsTool : ToolEntry := ⟨.internal, "fetch-actor-details", some "fetch-actor-details"⟩

def searchActors : ToolEntry := ⟨.internal, "search-actors", none⟩

def searchApifyDocsTool : ToolEntry := ⟨.internal, "search-apify-docs", none⟩

def fetchApifyDocsTool : ToolEntry := ⟨.internal, "fetch-apify-docs", none⟩

def getActorRun : ToolEntry := ⟨.internal, "get-actor-run", some "get-actor-run"⟩

def getUserRunsList : ToolEntry := ⟨.internal, "get-actor-run-list", some "get-actor-run-list"⟩

def getActorRunLog : ToolEntry := ⟨.internal, "get-actor-log", some "get-actor-log"⟩

def getDataset : ToolEntry := ⟨.internal, "get-dataset", some "get-dataset"⟩

def getDatasetItems : ToolEntry := ⟨.internal, "get-dataset-items", some "get-dataset-items"⟩

def getDatasetSchema : ToolEntry := ⟨.internal, "get-dataset-schema", some "get-dataset-schema"⟩

def getActorOutput : ToolEntry := ⟨.internal, "get-actor-output", some "get-actor-output"⟩

def getKeyValueStore : ToolEntry := ⟨.internal, "get-key-value-store", some "get-key-value-store"⟩

def getKeyValueStoreKeys : ToolEntry := ⟨.internal, "get-key-value-store-keys", some "get-key-value-store-keys"⟩

def getKeyValueStoreRecord : ToolEntry := ⟨.internal, "get-key-value-store-record", some "get-key-value-store-record"⟩

def getUserDatasetsList : ToolEntry := ⟨.internal, "get-dataset-list", some "get-dataset-list"⟩

def getUserKeyValueStoresList : ToolEntry := ⟨.internal, "get-key-value-store-list", some "get-key-value-store-list"⟩

/-- Embeds the `toolCategories` record (tools/index.ts) as a lookup from a
category key to its member tools; unknown keys yield `none`, mirroring the
undefined result of a JavaScript property access. -/
def toolCategories : String → Option (List ToolEntry)
  | "experimental" => some [addTool]
  | "actors" => some [fetchActorDetailsTool, searchActors, callActor]
  | "docs" => some [searchApifyDocsTool, fetchApifyDocsTool]
  | "runs" => some [getActorRun, getUserRunsList, getActorRunLog]
  | "storage" => some [getDataset, getDatasetItems, getDatasetSchema, getActorOutput,
      getKeyValueStore, getKeyValueStoreKeys, getKeyValueStoreRecord,
      getUserDatasetsList, getUserKeyValueStoresList]
  | _ => none

def allToolCategoryKeys : List String := ["experimental", "actors", "docs", "runs", "storage"]

def toolCategoriesEnabledByDefault : List String := ["actors", "docs"]

/-- Embeds `getExpectedToolsByCategories` (utils/tools): flat-map each category
to its members, unknown categories contributing nothing. -/
def getExpectedToolsByCategories (categories : List String) : List ToolEntry :=
  categories.flatMap (fun category => (toolCategories category).getD [])

/-- Embeds the lazily built internal-tool-by-name `Map` of the loader
(tools-loader.ts): a JavaScript `Map` built by insertion resolves duplicate
names last-write-wins, hence the lookup in the reversed flattened list. -/
def getInternalToolByName (s : String) : Option ToolEntry :=
  (getExpectedToolsByCategories allToolCategoryKeys).reverse.find? (fun e => e.name == s)

/-- Embeds `defaults.actors` (const.ts). -/
def defaultActors : List String := ["apify/rag-web-browser"]

/-- A value that may be a single string or an array of strings, as the
`actors` and `tools` fields of the Input type admit. -/
inductive StrOrStrings
  | str (s : String)
  | arr (l : List String)
deriving DecidableEq

/-- The normalized Input configuration (types.ts): three optional fields;
`none` throughout means the field was absent (apply defaults). -/
structure Input where
  actors : Option StrOrStrings := none
  enableAddingActors : Option Bool := none
  tools : Option StrOrStrings := none

/-- JavaScript `s.trim()`: strip leading and trailing whitespace. -/
def jsTrim (s : String) : String :=
  ⟨((s.data.dropWhile Char.isWhitespace).reverse.dropWhile Char.isWhitespace).reverse⟩

/-- Embeds `normalizeSelectors` (tools-loader.ts): undefined stays undefined;
otherwise wrap a lone string, trim every entry and drop empties. -/
def normalizeSelectors : Option StrOrStrings → Option (List String)
  | none => none
  | some (.str s) => some (([s].map jsTrim).filter (fun x => x ≠ ""))
  | some (.arr l) => some ((l.map jsTrim).filter (fun x => x ≠ ""))

/-- Embeds the selector partition loop of `loadToolsFromInput`: each selector
is a deprecated category, a known category, a concrete internal tool name, or
otherwise a candidate Actor name. -/
def selectorPartition (selectors : List String) : List ToolEntry × List String :=
  selectors.foldl
    (fun acc selector =>
      if selector = "preview" then (acc.1 ++ [callActor], acc.2)
      else
        match toolCategories selector with
        | some categoryTools => (acc.1 ++ categoryTools, acc.2)
        | none =>
            match getInternalToolByName selector with
            | some t => (acc.1 ++ [t], acc.2)
            | none => (acc.1, acc.2 ++ [selector]))
    ([], [])

/-- Embeds the `actorsFromField` computation of `loadToolsFromInput`:
undefined stays undefined, an array is taken as is, a lone string is wrapped. -/
def actorsFromField : Option StrOrStrings → Option (List String)
  | none => none
  | some (.arr l) => some l
  | some (.str s) => some [s]

def addActorEnabled (input : Input) : Bool := input.enableAddingActors = some true

/-- Embeds `actorsExplicitlyEmpty` (tools-loader.ts): an empty array or the
empty string. -/
def actorsExplicitlyEmpty (input : Input) : Bool :=
  match input.actors with
  | some (.arr []) => true
  | some (.str s) => s = ""
  | _ => false

/-- Embeds the `actorNamesToLoad` decision of `loadToolsFromInput` (lines
83-101): explicit actors field, else nonempty selector candidates, else — when
no selectors were supplied — defaults unless add-actor mode is enabled, else
nothing. -/
def actorNamesToLoad (input : Input) : List String :=
  let selectors? := normalizeSelectors input.tools
  let candidates :=
    match selectors? with
    | some sels => if sels.isEmpty then [] else (selectorPartition sels).2
    | none => []
  match actorsFromField input.actors with
  | some l => l
  | none =>
      if candidates.length > 0 then candidates
      else if selectors?.isNone then (if addActorEnabled input then [] else defaultActors)
      else []

/-- Keeps the first entry for every tool name, the JavaScript
`filter`-with-`seen`-set de-duplication closing `loadToolsFromInput`. -/
def dedupGo (seen : List String) : List ToolEntry → List ToolEntry
  | [] => []
  | e :: rest => if e.name ∈ seen then dedupGo seen rest else e :: dedupGo (e.name :: seen) rest

def dedupByName (l : List ToolEntry) : List ToolEntry := dedupGo [] l

/-- Embeds the internal-tool composition block of `loadToolsFromInput` (lines
103-119): selected internal tools plus the add-actor meta-tool in
dynamic-addition mode, or the default categories when nothing was selected. -/
def composeBaseTools (input : Input) : List ToolEntry :=
  let selectors? := normalizeSelectors input.tools
  let selectorsProvided := selectors?.isSome
  let selectors := selectors?.getD []
  let selectorsExplicitEmpty := selectorsProvided && selectors.isEmpty
  let internalSelections :=
    if selectorsProvided && !selectorsExplicitEmpty then (selectorPartition selectors).1 else []
  if selectorsProvided then
    (if addActorEnabled input && !selectorsExplicitEmpty && !(actorsExplicitlyEmpty input) then
      (if internalSelections.any (fun e => e.name == addTool.name) then internalSelections
       else internalSelections ++ [addTool])
     else internalSelections)
  else if addActorEnabled input && !(actorsExplicitlyEmpty input) then [addTool]
  else if !(actorsExplicitlyEmpty input) then getExpectedToolsByCategories toolCategoriesEnabledByDefault
  else []

/-- Appends the get-actor-output tool exactly when the list already holds a
tool able to invoke an Actor run (lines 127-136 of the loader). -/
def appendActorOutputIfNeeded (result : List ToolEntry) : List ToolEntry :=
  let hasCallActor := result.any (fun e => e.name == "call-actor")
  let hasActorTools := result.any (fun e => e.type == ToolType.actor)
  let hasAddActorTool := result.any (fun e => e.name == "add-actor")
  if hasCallActor || hasActorTools || hasAddActorTool then result ++ [getActorOutput]
  else result

/-- Embeds `loadToolsFromInput` (tools-loader.ts).  The concurrent Actor
metadata resolution (`getActorsAsTools`, a network call) is abstracted as the
function argument `fetchActors`, invoked exactly when the decided Actor-name
list is nonempty. -/
def loadToolsFromInput (input : Input) (fetchActors : List String → List ToolEntry) :
    List ToolEntry :=
  let names := actorNamesToLoad input
  let result₁ := composeBaseTools input
  let result₂ := if names.length > 0 then result₁ ++ fetchActors names else result₁
  dedupByName (appendActorOutputIfNeeded result₂)

/-- Stated from the spec's words (§4.3 step 3 together with the
absence-versus-empty invariant of §3), for comparison with the embedded
`actorNamesToLoad`: the explicit backend-name field takes priority even when
empty; otherwise the candidates extracted from a provided selector list are
used even when there are none; otherwise — no selectors given — the built-in
default backend set applies unless dynamic-addition mode is enabled. -/
def specResolvedBackendNames (input : Input) : List String :=
  match actorsFromField input.actors with
  | some l => l
  | none =>
      match normalizeSelectors input.tools with
      | some sels => (selectorPartition sels).2
      | none => if addActorEnabled input then [] else defaultActors

/-! Registry: a JavaScript `Map` from tool name to entry, insertion-ordered,
with last-write-wins `set`. -/

abbrev RegistryMap := List (String × ToolEntry)

def mapHas (m : RegistryMap) (k : String) : Bool := m.any (fun kv => kv.1 == k)

def mapSet (m : RegistryMap) (k : String) (v : ToolEntry) : RegistryMap :=
  if mapHas m k then m.map (fun kv => if kv.1 == k then (k, v) else kv) else m ++ [(k, v)]

def mapDelete (m : RegistryMap) (k : String) : RegistryMap := m.eraseP (fun kv => kv.1 == k)

def mapGet (m : RegistryMap) (k : String) : Option ToolEntry :=
  (m.find? (fun kv => kv.1 == k)).map Prod.snd

/-- Embeds `upsertTools` (part_002): set every entry under its tool name, then
invoke the tools-changed handler exactly when the flag says so.  Returns the
new map and whether the handler was invoked. -/
def upsertTools (m : RegistryMap) (tools : List ToolEntry) (shouldNotify : Bool) :
    RegistryMap × Bool :=
  (tools.foldl (fun acc w => mapSet acc w.name w) m, shouldNotify)

/-- Embeds `removeToolsByName` (part_002): delete each present name, collect
the names actually removed, and notify only when the flag is set and something
was removed.  Returns the new map, the removed names, and the notify bit. -/
def removeToolsByName (m : RegistryMap) (toolNames : List String) (shouldNotify : Bool) :
    RegistryMap × List String × Bool :=
  let fin := toolNames.foldl
    (fun (acc : RegistryMap × List String) n =>
      if mapHas acc.1 n then (mapDelete acc.1 n, acc.2 ++ [n]) else acc)
    (m, [])
  (fin.1, fin.2, !fin.2.isEmpty && shouldNotify)

/-! Bounded cache layer. -/

structure CacheEntry (T : Type) where
  value : T
  expiresAt : Nat
deriving DecidableEq

abbrev LruStore (T : Type) := List (String × CacheEntry T)

/-- Modelled from the spec: `get` of the external `LruCache` collaborator
(@apify/datastructures, not part of this repository) — plain keyed lookup. -/
def lruGet {T : Type} (m : LruStore T) (k : String) : Option (CacheEntry T) :=
  (m.find? (fun kv => kv.1 == k)).map Prod.snd

/-- Modelled from the spec: `remove` of the external `LruCache` collaborator —
delete the entry under the key. -/
def lruRemove {T : Type} (m : LruStore T) (k : String) : LruStore T :=
  m.eraseP (fun kv => kv.1 == k)

/-- Modelled from the spec: `add` of the external `LruCache` collaborator —
append the fresh entry as most recently used and evict least-recently-used
entries beyond the capacity. -/
def lruAdd {T : Type} (maxLength : Nat) (m : LruStore T) (k : String) (e : CacheEntry T) :
    LruStore T :=
  let m' := m ++ [(k, e)]
  if m'.length > maxLength then m'.drop (m'.length - maxLength) else m'

/-- Embeds the constructor arithmetic of `TTLLRUCache` (part_006):
`ttlMillis = ttlSecs * 1000`. -/
def ttlMillisOfSecs (ttlSecs : Nat) : Nat := ttlSecs * 1000

/-- Embeds `TTLLRUCache.set` (part_006): if the key already exists remove it,
then add the value with expiry `now + ttlMillis`. -/
def ttlSet {T : Type} (maxLength ttlMillis : Nat) (m : LruStore T) (k : String) (v : T)
    (now : Nat) : LruStore T :=
  let m₁ := if (lruGet m k).isSome then lruRemove m k else m
  lruAdd maxLength m₁ k ⟨v, now + ttlMillis⟩

/-- Embeds `TTLLRUCache.get` (part_006): return the value when present and
unexpired; otherwise remove the entry and report a miss.  Returns the read
result together with the post-read store. -/
def ttlGet {T : Type} (m : LruStore T) (k : String) (now : Nat) : Option T × LruStore T :=
  match lruGet m k with
  | some e => if e.expiresAt > now then (some e.value, m) else (none, lruRemove m k)
  | none => (none, lruRemove m k)

/-! Dispatcher. -/

inductive Content
  | text (s : String)
deriving DecidableEq

inductive ErrorCode
  | invalidParams
  | internalError
deriving DecidableEq

/-- What the tool-call handler hands back to the protocol layer: a successful
content response, the empty result object `{}` (returned for a cancelled call;
the protocol layer sends no reply for a cancelled request), or a structured
protocol error. -/
inductive DispatchResult
  | success (content : List Content)
  | empty
  | errorReply (code : ErrorCode) (message : String)
deriving DecidableEq

/-- Embeds JavaScript `name.split('__')`: a left-to-right scan splitting at
each non-overlapping occurrence of the separator. -/
def splitOnDunder : Str → List Str
  | [] => [[]]
  | '_' :: '_' :: rest => [] :: splitOnDunder rest
  | c :: rest =>
      match splitOnDunder rest with
      | s :: ss => (c :: s) :: ss
      | [] => [[c]]

/-- Embeds the name normalization of `setupToolHandlers` (part_002): only for
a requested name starting with 'local__' split on '__' and keep the last
segment. -/
def normalizeToolName (name : Str) : Str :=
  if "local__".data.isPrefixOf name then
    let parts := splitOnDunder name
    if parts.length > 1 then parts.getLastD [] else name
  else name

/-- Embeds the tool resolution of `setupToolHandlers` (part_002): first entry
whose local name matches, or — for Actor-backed tools — whose fully-qualified
Actor name matches as a fallback alias. -/
def findToolByName (tools : List ToolEntry) (name : Str) : Option ToolEntry :=
  tools.find? (fun t =>
    t.name.data == name || (t.type == ToolType.actor && t.actorFullName == some (String.mk name)))

def resolveCall (tools : List ToolEntry) (requested : Str) : Option ToolEntry :=
  findToolByName tools (normalizeToolName requested)

/-- The asynchronous remote-job world a single Actor call runs against: the
identifiers the platform would return, whether the caller's cancellation
signal fires before the run completes, and whether the abort call itself
fails. -/
structure ActorRunEnv where
  runId : String
  datasetId : String
  itemCount : Nat
  previewItems : List String
  signalFires : Bool
  abortThrows : Bool

/-- Remote platform API calls issued during a dispatch, as an event trace. -/
inductive ApiEvent
  | startRun (actorName : String)
  | abortRun (runId : String) (gracefully : Bool)
  | waitForFinish (runId : String)
  | listItems (datasetId : String)
deriving DecidableEq

structure CallActorGetDatasetResult where
  runId : String
  datasetId : String
  itemCount : Nat
  previewItems : List String
deriving DecidableEq

/-- Embeds `callActorGetDataset` (tools/actor): start the run; when an abort
signal is supplied and fires before completion, issue a best-effort
`abort(gracefully := false)` — an abort failure is logged and swallowed, so
the trace is the same whether or not the abort throws — and return null;
otherwise await completion and summarize the dataset. -/
def callActorGetDataset (actorName : String) (env : ActorRunEnv) (hasAbortSignal : Bool) :
    Option CallActorGetDatasetResult × List ApiEvent :=
  if hasAbortSignal && env.signalFires then
    (none, [.startRun actorName, .abortRun env.runId false])
  else
    (some ⟨env.runId, env.datasetId, env.itemCount, env.previewItems⟩,
      [.startRun actorName, .waitForFinish env.runId, .listItems env.datasetId])

/-- Embeds `buildActorResponseContent` (utils/actor-response): the preview
items come first and the metadata/instructions block last (texts abridged to
the data they carry). -/
def buildActorResponseContent (actorName : String) (result : CallActorGetDatasetResult) :
    List Content :=
  [ .text (String.intercalate "," result.previewItems),
    .text ("Actor " ++ actorName ++ " completed successfully! Run ID: " ++ result.runId
      ++ " Dataset ID: " ++ result.datasetId) ]

/-- Embeds the `tool.type === 'actor'` branch of `setupToolHandlers`
(part_002): call the Actor; a null result (client cancellation) yields the
empty result object, otherwise the summarized content. -/
def dispatchActorToolBranch (actorFullName : String) (env : ActorRunEnv) (hasAbortSignal : Bool) :
    DispatchResult × List ApiEvent :=
  let r := callActorGetDataset actorFullName env hasAbortSignal
  match r.1 with
  | none => (.empty, r.2)
  | some callResult => (.success (buildActorResponseContent actorFullName callResult), r.2)

/-- How the guarded dispatch body ends: normally, or by throwing a platform
`ApifyApiError`, or by throwing anything else. -/
inductive ExecOutcome
  | ok (r : DispatchResult)
  | apifyApiError (message : String)
  | otherError (message : String)

/-- Embeds the catch clause of `setupToolHandlers` (part_002): an
`ApifyApiError` is converted into a successful textual response carrying the
error message; every other exception becomes an InternalError protocol error
with a fixed generic message. -/
def dispatchCatch (name : String) (outcome : ExecOutcome) : DispatchResult :=
  match outcome with
  | .ok r => r
  | .apifyApiError m => .success [.text ("Apify API error calling tool " ++ name ++ ": " ++ m)]
  | .otherError _ => .errorReply .internalError "An error occurred while calling the tool."

/-! Schema shortening pass. -/

def ACTOR_ENUM_MAX_LENGTH : Nat := 200

def ACTOR_MAX_DESCRIPTION_LENGTH : Nat := 500

/-- The slice of a schema property's `items` that the shortening pass touches. -/
structure ItemsSchema where
  enum : Option (List Str)
deriving DecidableEq

/-- The slice of `ISchemaProperties` that the shortening pass touches: the
description, the enum list, and the nested items enum. -/
structure ISchemaProperties where
  description : Str
  enum : Option (List Str)
  items : Option ItemsSchema
deriving DecidableEq

/-- Embeds the filter closure of `shortenEnum` (tools/utils): a running
character count over every visited value — kept or not — with a value kept
exactly when the count so far stays within the budget. -/
def shortenEnumGo (charCount : Nat) : List Str → List Str
  | [] => []
  | v :: rest =>
      let cc := charCount + v.length
      if cc ≤ ACTOR_ENUM_MAX_LENGTH then v :: shortenEnumGo cc rest
      else shortenEnumGo cc rest

/-- Embeds `shortenEnum` (tools/utils): the filtered list, or `none`
(undefined) when nothing survived. -/
def shortenEnum (enumList : List Str) : Option (List Str) :=
  let resultEnumList := shortenEnumGo 0 enumList
  if resultEnumList.length > 0 then some resultEnumList else none

/-- Embeds the description truncation of `shortenProperties` (tools/utils). -/
def shortenDescription (d : Str) : Str :=
  if d.length > ACTOR_MAX_DESCRIPTION_LENGTH then d.take ACTOR_MAX_DESCRIPTION_LENGTH ++ "...".data
  else d

/-- Embeds the per-property body of `shortenProperties` (tools/utils):
truncate the description, and shorten a present nonempty enum and items.enum. -/
def shortenProperty (p : ISchemaProperties) : ISchemaProperties :=
  { description := shortenDescription p.description
    enum :=
      match p.enum with
      | some es => if es.length > 0 then shortenEnum es else some es
      | none => none
    items :=
      match p.items with
      | some it =>
          some ⟨match it.enum with
            | some es => if es.length > 0 then shortenEnum es else some es
            | none => none⟩
      | none => none }

/-- Embeds `shortenProperties` (tools/utils) over the property map. -/
def shortenProperties (properties : List (String × ISchemaProperties)) :
    List (String × ISchemaProperties) :=
  properties.map (fun kv => (kv.1, shortenProperty kv.2))

end ApifyMcp

namespace ApifyMcp

theorem mem_replaceChar {x : Char} {t : Char} {r : Str} :
    ∀ {l : Str}, x ∈ replaceChar t r l → x ∈ r ∨ x ∈ l := by
  intro l
  induction l with
  | nil => intro h; simp [replaceChar] at h
  | cons c rest ih =>
      intro h
      simp only [replaceChar, List.mem_append] at h
      rcases h with h | h
      · by_cases hc : c = t
        · simp [hc] at h; exact Or.inl h
        · simp [hc] at h; subst h; exact Or.inr (List.mem_cons_self _ _)
      · rcases ih h with h' | h'
        · exact Or.inl h'
        · exact Or.inr (List.mem_cons_of_mem _ h')

theorem replaceChar_not_mem {t : Char} {r : Str} (l : Str) (hr : t ∉ r) :
    t ∉ replaceChar t r l := by
  induction l with
  | nil => simp [replaceChar]
  | cons c rest ih =>
      simp only [replaceChar, List.mem_append]
      rintro (h | h)
      · by_cases hc : c = t
        · simp [hc] at h; exact hr h
        · simp [hc] at h; exact hc h.symm
      · exact ih h

theorem isInfix_cons {l₁ l₂ : Str} {a : Char} (h : l₁ <:+: l₂) : l₁ <:+: a :: l₂ := by
  obtain ⟨s, t, hst⟩ := h
  exact ⟨a :: s, t, by simp [← hst]⟩

theorem encode_cons_inv {c : Char} (hc : c ≠ '-') {l s : Str}
    (h : encodeDotPropertyName l = c :: s) :
    ∃ l', l = c :: l' ∧ encodeDotPropertyName l' = s := by
  cases l with
  | nil => simp [encodeDotPropertyName, replaceChar] at h
  | cons x xs =>
      by_cases hx : x = '.'
      · subst hx
        simp [encodeDotPropertyName, replaceChar, dotToken] at h
        exact absurd h.1.symm hc
      · simp [encodeDotPropertyName, replaceChar, hx] at h
        exact ⟨xs, by rw [h.1], h.2⟩

theorem decode_cons_not_tok {c : Char} {l : Str}
    (h : ¬ (c = '-' ∧ ['d', 'o', 't', '-'] <+: l)) :
    decodeDotPropertyName (c :: l) = c :: decodeDotPropertyName l := by
  rw [decodeDotPropertyName.eq_def]
  split
  · rename_i rest heq
    rw [List.cons.injEq] at heq
    exact absurd ⟨heq.1, heq.2 ▸ ⟨rest, rfl⟩⟩ h
  · rename_i c' rest' _ heq
    rw [List.cons.injEq] at heq
    rw [heq.1, heq.2]
  · rename_i heq
    exact absurd heq (List.cons_ne_nil c l)

theorem decode_encode_of_no_dotTok :
    ∀ key : Str, ¬ (['-', 'd', 'o', 't'] <:+: key) →
      decodeDotPropertyName (encodeDotPropertyName key) = key := by
  intro key
  induction key with
  | nil => intro _; rfl
  | cons c rest ih =>
      intro h
      have hrest : ¬ (['-', 'd', 'o', 't'] <:+: rest) := fun hin => h (isInfix_cons hin)
      by_cases hc : c = '.'
      · subst hc
        have he : encodeDotPropertyName ('.' :: rest)
            = '-' :: 'd' :: 'o' :: 't' :: '-' :: encodeDotPropertyName rest := by
          simp [encodeDotPropertyName, replaceChar, dotToken]
        rw [he]
        show '.' :: decodeDotPropertyName (encodeDotPropertyName rest) = '.' :: rest
        rw [ih hrest]
      · have he : encodeDotPropertyName (c :: rest) = c :: encodeDotPropertyName rest := by
          simp [encodeDotPropertyName, replaceChar, hc]
        rw [he]
        have hnot : ¬ (c = '-' ∧ ['d', 'o', 't', '-'] <+: encodeDotPropertyName rest) := by
          rintro ⟨hcm, s, hs⟩
          obtain ⟨l₁, hl₁, he₁⟩ := encode_cons_inv (by decide) hs.symm
          obtain ⟨l₂, hl₂, he₂⟩ := encode_cons_inv (by decide) he₁
          obtain ⟨l₃, hl₃, _⟩ := encode_cons_inv (by decide) he₂
          apply h
          refine ⟨[], l₃, ?_⟩
          subst hcm hl₁ hl₂ hl₃
          rfl
        rw [decode_cons_not_tok hnot, ih hrest]

/-- C3 (counterexample): the name 'a-dot.b' contains a dot, yet encoding it
('a-dot-dot-b') and decoding the result yields 'a.dot-b', not the original
name: the claimed round trip fails on names already containing the
placeholder text. -/
theorem dot_round_trip_counterexample :
    '.' ∈ "a-dot.b".data ∧
    decodeDotPropertyName (encodeDotPropertyName "a-dot.b".data) ≠ "a-dot.b".data := by
  decide

/-- C3 (amended): for every property name containing '.' whose text does not
contain the substring '-dot', encoding (every '.' becomes '-dot-') followed by
decoding (every '-dot-' becomes '.') restores the original name; in
particular 'a.b.c' is exported as 'a-dot-b-dot-c' and decodes back to 'a.b.c'
before argument validation in the dispatcher. -/
theorem dot_round_trip_amended :
    (∀ key : Str, '.' ∈ key → ¬ (['-', 'd', 'o', 't'] <:+: key) →
      decodeDotPropertyName (encodeDotPropertyName key) = key) ∧
    encodeDotPropertyName "a.b.c".data = "a-dot-b-dot-c".data ∧
    decodeDotPropertyName "a-dot-b-dot-c".data = "a.b.c".data :=
  ⟨fun key _ h => decode_encode_of_no_dotTok key h, by decide, by decide⟩

/-- Witness for the amended C3 round trip at the name 'a.b.c'. -/
theorem dot_round_trip_amended_witness :
    decodeDotPropertyName (encodeDotPropertyName "a.b.c".data) = "a.b.c".data :=
  dot_round_trip_amended.1 "a.b.c".data (by decide) (by decide)

theorem gen_find?_append_of_false {V : Type} {p : String × V → Bool}
    {l₁ : List (String × V)} (h : ∀ x ∈ l₁, p x = false) (l₂ : List (String × V)) :
    (l₁ ++ l₂).find? p = l₂.find? p := by
  induction l₁ with
  | nil => rfl
  | cons a l ih =>
      have ha : p a = false := h a (List.mem_cons_self _ _)
      simp only [List.cons_append, List.find?_cons, ha]
      exact ih (fun x hx => h x (List.mem_cons_of_mem _ hx))

theorem mapHas_false_elim {m : RegistryMap} {k : String} (h : mapHas m k = false) :
    ∀ kv ∈ m, (kv.1 == k) = false := by
  intro kv hkv
  simp only [mapHas, List.any_eq_false] at h
  simpa using h kv hkv

theorem countP_key_eq_count (m : RegistryMap) (k : String) :
    m.countP (fun kv => kv.1 == k) = (m.map Prod.fst).count k := by
  rw [List.count, List.countP_map]
  rfl

theorem countP_mapSet_eq_one {m : RegistryMap} (hnd : (m.map Prod.fst).Nodup)
    (k : String) (v : ToolEntry) :
    (mapSet m k v).countP (fun kv => kv.1 == k) = 1 := by
  by_cases hm : mapHas m k
  · have hle : m.countP (fun kv => kv.1 == k) ≤ 1 := by
      rw [countP_key_eq_count]
      exact List.nodup_iff_count_le_one.mp hnd k
    have hpos : 0 < m.countP (fun kv => kv.1 == k) := by
      rw [List.countP_pos_iff]
      simpa [mapHas, List.any_eq_true] using hm
    have hmap : (mapSet m k v).countP (fun kv => kv.1 == k)
        = m.countP (fun kv => kv.1 == k) := by
      simp only [mapSet, hm, if_true, List.countP_map]
      apply List.countP_congr
      intro kv _
      by_cases hkv : kv.1 = k <;> simp [Function.comp, hkv]
    omega
  · have h0 : m.countP (fun kv => kv.1 == k) = 0 :=
      List.countP_eq_zero.mpr (by simpa using mapHas_false_elim (by simpa using hm))
    simp [mapSet, hm, List.countP_append, h0, List.countP_cons]

theorem nodup_keys_mapSet {m : RegistryMap} (hnd : (m.map Prod.fst).Nodup)
    (k : String) (v : ToolEntry) :
    ((mapSet m k v).map Prod.fst).Nodup := by
  by_cases hm : mapHas m k
  · have : (mapSet m k v).map Prod.fst = m.map Prod.fst := by
      simp only [mapSet, hm, if_true, List.map_map]
      apply List.map_congr_left
      intro kv _
      by_cases hkv : kv.1 = k <;> simp [Function.comp, hkv]
    rw [this]; exact hnd
  · have hk : k ∉ m.map Prod.fst := by
      intro hmem
      obtain ⟨kv, hkv, hfst⟩ := List.mem_map.mp hmem
      have := mapHas_false_elim (by simpa using hm) kv hkv
      simp [hfst] at this
    simp [mapSet, hm, List.nodup_append, hk, hnd]

theorem find?_map_replace (k : String) (v : ToolEntry) :
    ∀ m : RegistryMap, mapHas m k = true →
      (m.map (fun kv => if kv.1 == k then (k, v) else kv)).find? (fun kv => kv.1 == k)
        = some (k, v) := by
  intro m
  induction m with
  | nil => intro hm; simp [mapHas] at hm
  | cons kv rest ih =>
      intro hm
      by_cases hkv : kv.1 = k
      · simp [List.find?_cons, hkv]
      · have hm' : mapHas rest k = true := by
          simpa [mapHas, List.any_cons, hkv] using hm
        simpa [List.find?_cons, hkv] using ih hm'

theorem find?_mapSet_self (m : RegistryMap) (k : String) (v : ToolEntry) :
    (mapSet m k v).find? (fun kv => kv.1 == k) = some (k, v) := by
  by_cases hm : mapHas m k
  · rw [show mapSet m k v = m.map (fun kv => if kv.1 == k then (k, v) else kv) from by
      simp [mapSet, hm]]
    exact find?_map_replace k v m hm
  · have hm' : mapHas m k = false := by simpa using hm
    rw [show mapSet m k v = m ++ [(k, v)] from by simp [mapSet, hm']]
    rw [gen_find?_append_of_false (mapHas_false_elim hm')]
    simp

/-- C10: the locally exposed name of an Actor-backed tool replaces '/' with
'-slash-' and '.' with '-dot-' and truncates to 64 characters, so it is at
most 64 characters long and free of '/' and '.'; the mapping is not injective
('a/b' and 'a-slash-b' collide), and the registry's last-write-wins upsert
keeps exactly one entry — the later one — for a collided name. -/
theorem actor_tool_name_mangling :
    (∀ s : Str, (actorNameToToolName s).length ≤ 64 ∧
      '/' ∉ actorNameToToolName s ∧ '.' ∉ actorNameToToolName s) ∧
    ("a/b".data ≠ "a-slash-b".data ∧
      actorNameToToolName "a/b".data = actorNameToToolName "a-slash-b".data) ∧
    (∀ (m : RegistryMap) (e₁ e₂ : ToolEntry) (flag : Bool),
      (m.map Prod.fst).Nodup → e₁.name = e₂.name →
      mapGet (upsertTools m [e₁, e₂] flag).1 e₂.name = some e₂ ∧
      (upsertTools m [e₁, e₂] flag).1.countP (fun kv => kv.1 == e₂.name) = 1) := by
  refine ⟨?_, by decide, ?_⟩
  · intro s
    refine ⟨List.length_take_le _ _, ?_, ?_⟩
    · intro hmem
      have h₁ := List.take_subset 64 _ hmem
      rcases mem_replaceChar h₁ with h₂ | h₂
      · revert h₂; decide
      · exact replaceChar_not_mem s (by decide) h₂
    · intro hmem
      exact replaceChar_not_mem _ (by decide) (List.take_subset 64 _ hmem)
  · intro m e₁ e₂ flag hnd hname
    have hfold : (upsertTools m [e₁, e₂] flag).1 = mapSet (mapSet m e₁.name e₁) e₂.name e₂ := by
      simp [upsertTools]
    rw [hfold, hname]
    constructor
    · rw [mapGet, find?_mapSet_self]
      rfl
    · exact countP_mapSet_eq_one (nodup_keys_mapSet hnd _ _) _ _

/-- Witness for C10: upserting two entries sharing the tool name 't' leaves
exactly the later entry under 't'. -/
theorem actor_tool_name_mangling_witness :
    mapGet (upsertTools [] [⟨ToolType.actor, "t", some "a/b"⟩,
        ⟨ToolType.actor, "t", some "a.b"⟩] false).1 "t"
      = some ⟨ToolType.actor, "t", some "a.b"⟩ ∧
    (upsertTools [] [⟨ToolType.actor, "t", some "a/b"⟩,
        ⟨ToolType.actor, "t", some "a.b"⟩] false).1.countP (fun kv => kv.1 == "t") = 1 :=
  actor_tool_name_mangling.2.2 [] ⟨ToolType.actor, "t", some "a/b"⟩
    ⟨ToolType.actor, "t", some "a.b"⟩ false (by simp) rfl

theorem remove_fold_no_op (m : RegistryMap) :
    ∀ names : List String, (∀ n ∈ names, mapHas m n = false) →
      names.foldl
        (fun (acc : RegistryMap × List String) n =>
          if mapHas acc.1 n then (mapDelete acc.1 n, acc.2 ++ [n]) else acc)
        (m, []) = (m, []) := by
  intro names
  induction names with
  | nil => intro _; rfl
  | cons n rest ih =>
      intro h
      have hn : mapHas m n = false := h n (List.mem_cons_self _ _)
      simp only [List.foldl_cons, hn, Bool.false_eq_true, if_false]
      exact ih (fun x hx => h x (List.mem_cons_of_mem _ hx))

/-- C7: upserting the same entry twice leaves exactly one registry entry under
its name, and removing a batch of names none of which is present returns an
empty removed list, leaves the map unchanged, and does not notify. -/
theorem registry_upsert_remove_contract :
    (∀ (m : RegistryMap) (e : ToolEntry) (f₁ f₂ : Bool), (m.map Prod.fst).Nodup →
      (upsertTools (upsertTools m [e] f₁).1 [e] f₂).1.countP (fun kv => kv.1 == e.name) = 1) ∧
    (∀ (m : RegistryMap) (names : List String) (flag : Bool),
      (∀ n ∈ names, mapHas m n = false) →
      removeToolsByName m names flag = (m, [], false)) := by
  constructor
  · intro m e f₁ f₂ hnd
    have hfold : (upsertTools (upsertTools m [e] f₁).1 [e] f₂).1
        = mapSet (mapSet m e.name e) e.name e := by
      simp [upsertTools]
    rw [hfold]
    exact countP_mapSet_eq_one (nodup_keys_mapSet hnd _ _) _ _
  · intro m names flag h
    simp only [removeToolsByName]
    rw [remove_fold_no_op m names h]
    simp

/-- Witness for C7 at a concrete registry, entry and name batch. -/
theorem registry_upsert_remove_contract_witness :
    (upsertTools (upsertTools [] [addTool] true).1 [addTool] false).1.countP
      (fun kv => kv.1 == addTool.name) = 1 ∧
    removeToolsByName [("a", callActor)] ["b"] true = ([("a", callActor)], [], false) :=
  ⟨registry_upsert_remove_contract.1 [] addTool true false (by simp),
   registry_upsert_remove_contract.2 [("a", callActor)] ["b"] true (by decide)⟩

/-- C1: when a backend-job (Actor) call carries a cancellation signal that
fires before the remote run completes, the dispatcher issues a best-effort
non-graceful abort (gracefully = false) of the remote run — unaffected by the
abort call itself failing — and hands the protocol layer the empty result,
neither content nor an error reply. -/
theorem actor_call_cancellation :
    ∀ (actorName : String) (env : ActorRunEnv), env.signalFires = true →
      (dispatchActorToolBranch actorName env true).1 = DispatchResult.empty ∧
      ApiEvent.abortRun env.runId false ∈ (dispatchActorToolBranch actorName env true).2 ∧
      (∀ b : Bool, dispatchActorToolBranch actorName env true
        = dispatchActorToolBranch actorName { env with abortThrows := b } true) := by
  intro actorName env h
  refine ⟨?_, ?_, ?_⟩ <;> simp [dispatchActorToolBranch, callActorGetDataset, h]

/-- Witness for C1 at a concrete Actor call environment. -/
theorem actor_call_cancellation_witness :
    (dispatchActorToolBranch "apify/rag-web-browser" ⟨"r1", "d1", 0, [], true, true⟩ true).1
      = DispatchResult.empty ∧
    ApiEvent.abortRun "r1" false
      ∈ (dispatchActorToolBranch "apify/rag-web-browser" ⟨"r1", "d1", 0, [], true, true⟩ true).2 :=
  ⟨(actor_call_cancellation "apify/rag-web-browser" ⟨"r1", "d1", 0, [], true, true⟩ rfl).1,
   (actor_call_cancellation "apify/rag-web-browser" ⟨"r1", "d1", 0, [], true, true⟩ rfl).2.1⟩

/-- C5: a platform `ApifyApiError` thrown during dispatch is converted into a
successful textual response describing the error, while any other exception
becomes an InternalError protocol error whose message is a fixed generic text
independent of the underlying error detail. -/
theorem dispatch_error_conversion :
    ∀ name message : String,
      dispatchCatch name (ExecOutcome.apifyApiError message)
        = DispatchResult.success
            [Content.text ("Apify API error calling tool " ++ name ++ ": " ++ message)] ∧
      dispatchCatch name (ExecOutcome.otherError message)
        = DispatchResult.errorReply ErrorCode.internalError
            "An error occurred while calling the tool." ∧
      (∀ name' message' : String,
        dispatchCatch name (ExecOutcome.otherError message)
          = dispatchCatch name' (ExecOutcome.otherError message')) :=
  fun _ _ => ⟨rfl, rfl, fun _ _ => rfl⟩

theorem splitOnDunder_ne_nil : ∀ l : Str, splitOnDunder l ≠ [] := by
  intro l
  rw [splitOnDunder.eq_def]
  split
  · simp
  · simp
  · split <;> simp

theorem splitOnDunder_local (rest : Str) :
    splitOnDunder ("local__".data ++ rest) = "local".data :: splitOnDunder rest := rfl

theorem isPrefixOf_append_self (l t : Str) : l.isPrefixOf (l ++ t) = true := by
  induction l with
  | nil => simp [List.isPrefixOf]
  | cons c rest ih => simp [List.isPrefixOf, ih]

theorem normalize_local {name : Str} (h : "local__".data <+: name) :
    normalizeToolName name = (splitOnDunder name).getLastD [] := by
  obtain ⟨rest, hrest⟩ := h
  subst hrest
  have hpre := isPrefixOf_append_self "local__".data rest
  have hlen : 1 < (splitOnDunder ("local__".data ++ rest)).length := by
    rw [splitOnDunder_local]
    have := List.length_pos.mpr (splitOnDunder_ne_nil rest)
    simp only [List.length_cons]
    omega
  simp only [normalizeToolName, hpre, if_true, hlen]

/-- C6 (counterexample): the dispatcher strips the namespace prefix only for
names beginning with 'local__'; the namespaced name 'foo__ns__my-tool' is not
stripped, so it fails to resolve in a registry holding 'my-tool'. -/
theorem tool_name_prefix_stripping_counterexample :
    resolveCall [⟨ToolType.internal, "my-tool", none⟩] "foo__ns__my-tool".data = none ∧
    resolveCall [⟨ToolType.internal, "my-tool", none⟩] "my-tool".data
      = some ⟨ToolType.internal, "my-tool", none⟩ := by
  decide

/-- C6 (amended): only a requested name beginning with 'local__' is stripped
to the last '__'-separated segment before resolution — other names resolve as
given; in particular a call for 'local__ns__my-tool' resolves identically to
a call for 'my-tool', against every registry. -/
theorem tool_name_prefix_stripping_amended :
    (∀ (tools : List ToolEntry) (name : Str), "local__".data.isPrefixOf name = false →
      resolveCall tools name = findToolByName tools name) ∧
    (∀ (tools : List ToolEntry) (name : Str), "local__".data <+: name →
      resolveCall tools name = findToolByName tools ((splitOnDunder name).getLastD [])) ∧
    (∀ tools : List ToolEntry,
      resolveCall tools "local__ns__my-tool".data = resolveCall tools "my-tool".data) := by
  refine ⟨?_, ?_, fun tools => rfl⟩
  · intro tools name h
    simp [resolveCall, normalizeToolName, h]
  · intro tools name h
    rw [resolveCall, normalize_local h]

/-- Witness for the amended C6 at concrete names and the empty registry. -/
theorem tool_name_prefix_stripping_witness :
    resolveCall [] "x__y".data = findToolByName [] "x__y".data ∧
    resolveCall [] "local__a__b".data
      = findToolByName [] ((splitOnDunder "local__a__b".data).getLastD []) :=
  ⟨tool_name_prefix_stripping_amended.1 [] "x__y".data (by decide),
   tool_name_prefix_stripping_amended.2.1 [] "local__a__b".data ⟨"a__b".data, by decide⟩⟩

theorem lru_find?_none {T : Type} {m : LruStore T} {k : String}
    (h : k ∉ m.map Prod.fst) : m.find? (fun kv => kv.1 == k) = none := by
  rw [List.find?_eq_none]
  intro kv hkv
  simp only [beq_iff_eq]
  exact fun he => h (List.mem_map.mpr ⟨kv, hkv, he⟩)

theorem not_mem_keys_lruRemove {T : Type} {m : LruStore T}
    (hnd : (m.map Prod.fst).Nodup) (k : String) :
    k ∉ (lruRemove m k).map Prod.fst := by
  induction m with
  | nil => simp [lruRemove]
  | cons kv rest ih =>
      rw [List.map_cons, List.nodup_cons] at hnd
      by_cases hk : kv.1 = k
      · rw [lruRemove, List.eraseP_cons_of_pos (by simpa using hk)]
        rw [← hk]
        exact hnd.1
      · rw [lruRemove, List.eraseP_cons_of_neg (by simpa using hk), List.map_cons]
        intro hmem
        rcases List.mem_cons.mp hmem with hmem | hmem
        · exact hk hmem.symm
        · exact ih hnd.2 hmem

theorem nodup_keys_lruRemove {T : Type} {m : LruStore T}
    (hnd : (m.map Prod.fst).Nodup) (k : String) :
    ((lruRemove m k).map Prod.fst).Nodup :=
  ((List.eraseP_sublist _).map Prod.fst).nodup hnd

theorem drop_append_small {α : Type} (l₂ : List α) :
    ∀ (l₁ : List α) (n : Nat), n ≤ l₁.length → (l₁ ++ l₂).drop n = l₁.drop n ++ l₂ := by
  intro l₁
  induction l₁ with
  | nil =>
      intro n hn
      simp only [List.length_nil, Nat.le_zero] at hn
      subst hn; rfl
  | cons a l ih =>
      intro n hn
      cases n with
      | zero => rfl
      | succ n' => simpa using ih n' (by simpa using hn)

theorem lruGet_lruAdd_self {T : Type} (cap : Nat) (hcap : 0 < cap) {m₁ : LruStore T}
    {k : String} (hk : k ∉ m₁.map Prod.fst) (e : CacheEntry T) :
    lruGet (lruAdd cap m₁ k e) k = some e := by
  have hall : ∀ kv ∈ m₁, (kv.1 == k) = false := by
    intro kv hkv
    simp only [beq_eq_false_iff_ne, ne_eq]
    exact fun he => hk (List.mem_map.mpr ⟨kv, hkv, he⟩)
  rw [lruAdd]
  by_cases hlen : (m₁ ++ [(k, e)]).length > cap
  · simp only [hlen, if_true]
    have hle : (m₁ ++ [(k, e)]).length - cap ≤ m₁.length := by
      simp only [List.length_append, List.length_cons, List.length_nil]
      omega
    rw [drop_append_small _ _ _ hle, lruGet,
      gen_find?_append_of_false (fun kv hkv => hall kv (List.drop_subset _ _ hkv))]
    simp
  · simp only [hlen, if_false]
    rw [lruGet, gen_find?_append_of_false hall]
    simp

theorem nodup_keys_lruAdd {T : Type} (cap : Nat) {m₁ : LruStore T}
    (hnd : (m₁.map Prod.fst).Nodup) {k : String} (hk : k ∉ m₁.map Prod.fst) (e : CacheEntry T) :
    ((lruAdd cap m₁ k e).map Prod.fst).Nodup := by
  have hbase : ((m₁ ++ [(k, e)]).map Prod.fst).Nodup := by
    simp [List.nodup_append, hnd, hk]
  rw [lruAdd]
  by_cases hlen : (m₁ ++ [(k, e)]).length > cap
  · simp only [hlen, if_true]
    exact ((List.drop_sublist _ _).map Prod.fst).nodup hbase
  · simpa only [hlen, if_false] using hbase

theorem ttlSet_lookup {T : Type} (cap ttl : Nat) (hcap : 0 < cap) {m : LruStore T}
    (hnd : (m.map Prod.fst).Nodup) (k : String) (v : T) (now : Nat) :
    lruGet (ttlSet cap ttl m k v now) k = some ⟨v, now + ttl⟩ ∧
    ((ttlSet cap ttl m k v now).map Prod.fst).Nodup := by
  have hm₁ : ttlSet cap ttl m k v now
      = lruAdd cap (if (lruGet m k).isSome then lruRemove m k else m) k ⟨v, now + ttl⟩ := rfl
  rw [hm₁]
  by_cases hg : (lruGet m k).isSome
  · simp only [hg, if_true]
    exact ⟨lruGet_lruAdd_self cap hcap (not_mem_keys_lruRemove hnd k) _,
      nodup_keys_lruAdd cap (nodup_keys_lruRemove hnd k) (not_mem_keys_lruRemove hnd k) _⟩
  · simp only [hg, if_false]
    have hk : k ∉ m.map Prod.fst := by
      intro hmem
      obtain ⟨kv, hkv, hfst⟩ := List.mem_map.mp hmem
      have : m.find? (fun kv => kv.1 == k) ≠ none := by
        intro hnone
        rw [List.find?_eq_none] at hnone
        exact hnone kv hkv (by simpa using hfst)
      rcases ho : m.find? (fun kv => kv.1 == k) with _ | e₀
      · exact this ho
      · exact hg (by simp [lruGet, ho])
    exact ⟨lruGet_lruAdd_self cap hcap hk _, nodup_keys_lruAdd cap hnd hk _⟩

/-- C8: with a positive TTL (and a positive capacity), a `set` followed by an
immediate `get` returns the value; once the TTL has elapsed a `get` misses and
evicts, so a further `get` on the post-read store misses at any time; and a
`set` on an already-present key replaces the stored value and resets the
expiry to the set time plus the TTL. -/
theorem cache_ttl_contract {T : Type} :
    ∀ (cap ttlSecs : Nat) (m : LruStore T) (k : String) (v : T) (now : Nat),
      0 < cap → 0 < ttlSecs → (m.map Prod.fst).Nodup →
      ((ttlGet (ttlSet cap (ttlMillisOfSecs ttlSecs) m k v now) k now).1 = some v) ∧
      (∀ now₂, now + ttlMillisOfSecs ttlSecs ≤ now₂ →
        (ttlGet (ttlSet cap (ttlMillisOfSecs ttlSecs) m k v now) k now₂).1 = none ∧
        ∀ now₃,
          (ttlGet ((ttlGet (ttlSet cap (ttlMillisOfSecs ttlSecs) m k v now) k now₂).2) k now₃).1
            = none) ∧
      (∀ (v₂ : T) (now₂ : Nat),
        lruGet (ttlSet cap (ttlMillisOfSecs ttlSecs)
            (ttlSet cap (ttlMillisOfSecs ttlSecs) m k v now) k v₂ now₂) k
          = some ⟨v₂, now₂ + ttlMillisOfSecs ttlSecs⟩) := by
  intro cap ttlSecs m k v now hcap httl hnd
  obtain ⟨hlook, hnd₁⟩ := ttlSet_lookup cap (ttlMillisOfSecs ttlSecs) hcap hnd k v now
  have hpos : 0 < ttlMillisOfSecs ttlSecs := by
    have := Nat.mul_pos httl (show 0 < 1000 by decide)
    simpa [ttlMillisOfSecs] using this
  refine ⟨?_, ?_, ?_⟩
  · rw [ttlGet, hlook]
    have : now < now + ttlMillisOfSecs ttlSecs := by omega
    simp [this]
  · intro now₂ h₂
    have hmiss : ttlGet (ttlSet cap (ttlMillisOfSecs ttlSecs) m k v now) k now₂
        = (none, lruRemove (ttlSet cap (ttlMillisOfSecs ttlSecs) m k v now) k) := by
      rw [ttlGet, hlook]
      have : ¬ (now + ttlMillisOfSecs ttlSecs > now₂) := by omega
      simp [this]
    refine ⟨by rw [hmiss], ?_⟩
    intro now₃
    rw [hmiss]
    have hout : k ∉ (lruRemove (ttlSet cap (ttlMillisOfSecs ttlSecs) m k v now) k).map Prod.fst :=
      not_mem_keys_lruRemove hnd₁ k
    rw [ttlGet]
    rw [show lruGet (lruRemove (ttlSet cap (ttlMillisOfSecs ttlSecs) m k v now) k) k = none from by
      rw [lruGet, lru_find?_none hout]; rfl]
  · intro v₂ now₂
    exact (ttlSet_lookup cap (ttlMillisOfSecs ttlSecs) hcap hnd₁ k v₂ now₂).1

/-- Witness for C8 at the metadata cache parameters (capacity 500, TTL 30
minutes), a fresh store, and concrete times. -/
theorem cache_ttl_contract_witness :
    ((ttlGet (ttlSet 500 (ttlMillisOfSecs 1800) ([] : LruStore Nat) "a" 7 0) "a" 0).1 = some 7) ∧
    (ttlGet (ttlSet 500 (ttlMillisOfSecs 1800) ([] : LruStore Nat) "a" 7 0) "a" 2000000).1
      = none :=
  ⟨(cache_ttl_contract 500 1800 [] "a" 7 0 (by decide) (by decide) (by simp)).1,
   ((cache_ttl_contract 500 1800 [] "a" 7 0 (by decide) (by decide) (by simp)).2.1
      2000000 (by decide)).1⟩

theorem shortenEnumGo_sum :
    ∀ (l : List Str) (cc : Nat),
      ((shortenEnumGo cc l).map List.length).sum ≤ ACTOR_ENUM_MAX_LENGTH - cc := by
  intro l
  induction l with
  | nil => intro cc; simp [shortenEnumGo]
  | cons v rest ih =>
      intro cc
      rw [shortenEnumGo]
      by_cases h : cc + v.length ≤ ACTOR_ENUM_MAX_LENGTH
      · simp only [h, if_true, List.map_cons, List.sum_cons]
        have := ih (cc + v.length)
        omega
      · simp only [h, if_false]
        have := ih (cc + v.length)
        omega

theorem shortenEnumGo_eq_nil_of_gt :
    ∀ (l : List Str) {cc : Nat}, ACTOR_ENUM_MAX_LENGTH < cc → shortenEnumGo cc l = [] := by
  intro l
  induction l with
  | nil => intro cc _; rfl
  | cons v rest ih =>
      intro cc h
      rw [shortenEnumGo]
      have : ¬ (cc + v.length ≤ ACTOR_ENUM_MAX_LENGTH) := by omega
      simp only [this, if_false]
      exact ih (by omega)

theorem shortenEnumGo_isPrefix :
    ∀ (l : List Str) (cc : Nat), shortenEnumGo cc l <+: l := by
  intro l
  induction l with
  | nil => intro cc; exact List.nil_prefix
  | cons v rest ih =>
      intro cc
      rw [shortenEnumGo]
      by_cases h : cc + v.length ≤ ACTOR_ENUM_MAX_LENGTH
      · simp only [h, if_true]
        obtain ⟨t, ht⟩ := ih (cc + v.length)
        exact ⟨t, by rw [List.cons_append, ht]⟩
      · simp only [h, if_false]
        rw [shortenEnumGo_eq_nil_of_gt rest (by omega)]
        exact List.nil_prefix

/-- C9: after the shortening pass, a description longer than the
500-character limit is truncated to at most 503 characters ending in '...';
the retained enum values of any enum list sum to at most the 200-character
budget, are an initial segment of the original list (dropped from the tail),
and the enum field is removed exactly when even the first value exceeds the
budget. -/
theorem schema_shortening_bounds :
    ∀ (properties : List (String × ISchemaProperties)) (kp : String × ISchemaProperties),
      kp ∈ properties →
      (kp.1, shortenProperty kp.2) ∈ shortenProperties properties ∧
      (ACTOR_MAX_DESCRIPTION_LENGTH < kp.2.description.length →
        (shortenProperty kp.2).description.length ≤ ACTOR_MAX_DESCRIPTION_LENGTH + 3 ∧
        "...".data <:+ (shortenProperty kp.2).description) ∧
      (∀ es, kp.2.enum = some es →
        (∀ out, (shortenProperty kp.2).enum = some out →
          (out.map List.length).sum ≤ ACTOR_ENUM_MAX_LENGTH ∧ out <+: es) ∧
        (∀ v rest, es = v :: rest →
          ((shortenProperty kp.2).enum = none ↔ ACTOR_ENUM_MAX_LENGTH < v.length))) := by
  intro properties kp hmem
  refine ⟨List.mem_map_of_mem _ hmem, ?_, ?_⟩
  · intro hd
    have hdesc : (shortenProperty kp.2).description
        = kp.2.description.take ACTOR_MAX_DESCRIPTION_LENGTH ++ "...".data := by
      simp [shortenProperty, shortenDescription, hd]
    rw [hdesc]
    constructor
    · simp only [List.length_append, List.length_take, List.length_cons, List.length_nil]
      omega
    · exact List.suffix_append _ _
  · intro es hes
    constructor
    · intro out hout
      by_cases hlen : es.length > 0
      · have he : (shortenProperty kp.2).enum = shortenEnum es := by
          simp [shortenProperty, hes, hlen]
        rw [he, shortenEnum] at hout
        by_cases hr : (shortenEnumGo 0 es).length > 0
        · simp only [hr, if_true, Option.some.injEq] at hout
          rw [← hout]
          exact ⟨le_trans (shortenEnumGo_sum es 0) (by omega), shortenEnumGo_isPrefix es 0⟩
        · simp [hr] at hout
      · have hnil : es = [] := by simpa using hlen
        subst hnil
        have he : (shortenProperty kp.2).enum = some [] := by
          simp [shortenProperty, hes]
        rw [he, Option.some.injEq] at hout
        rw [← hout]
        simp
    · intro v rest hvr
      subst hvr
      have he : (shortenProperty kp.2).enum = shortenEnum (v :: rest) := by
        simp [shortenProperty, hes]
      rw [he, shortenEnum]
      by_cases hv : v.length ≤ ACTOR_ENUM_MAX_LENGTH
      · rw [shortenEnumGo]
        have h0 : 0 + v.length ≤ ACTOR_ENUM_MAX_LENGTH := by omega
        simp only [h0, if_true]
        simp only [List.length_cons, gt_iff_lt, Nat.succ_pos, if_true]
        constructor
        · intro hcontra; simp at hcontra
        · intro hcontra; omega
      · rw [shortenEnumGo]
        have h0 : ¬ (0 + v.length ≤ ACTOR_ENUM_MAX_LENGTH) := by omega
        simp only [h0, if_false]
        rw [shortenEnumGo_eq_nil_of_gt rest (by omega)]
        simp only [List.length_nil, gt_iff_lt, Nat.lt_irrefl, if_false]
        simp only [true_iff]
        omega

/-- Witness for C9 at a property with a 501-character description and a
single 300-character enum value. -/
theorem schema_shortening_bounds_witness :
    (shortenProperty ⟨List.replicate 501 'x', some [List.replicate 300 'e'], none⟩).description.length
      ≤ ACTOR_MAX_DESCRIPTION_LENGTH + 3 ∧
    ((shortenProperty ⟨List.replicate 501 'x', some [List.replicate 300 'e'], none⟩).enum = none
      ↔ ACTOR_ENUM_MAX_LENGTH < (List.replicate 300 'e').length) :=
  ⟨((schema_shortening_bounds
      [("p", ⟨List.replicate 501 'x', some [List.replicate 300 'e'], none⟩)]
      ("p", ⟨List.replicate 501 'x', some [List.replicate 300 'e'], none⟩)
      (List.mem_singleton.mpr rfl)).2.1
      (by simp only [List.length_replicate]; decide)).1,
   ((schema_shortening_bounds
      [("p", ⟨List.replicate 501 'x', some [List.replicate 300 'e'], none⟩)]
      ("p", ⟨List.replicate 501 'x', some [List.replicate 300 'e'], none⟩)
      (List.mem_singleton.mpr rfl)).2.2 [List.replicate 300 'e'] rfl).2
      (List.replicate 300 'e') [] rfl⟩

/-- C2: the loader resolves backend names by the documented priority — the
explicit actors field (even when empty) over candidates extracted from the
selector list over the built-in defaults, except that dynamic-addition mode
with no selectors loads no backends — and in particular: both fields absent
loads the default backend set, while selectors explicitly empty with actors
absent yields no backends and no default internal categories at all. -/
theorem selector_defaults :
    (∀ input : Input, actorNamesToLoad input = specResolvedBackendNames input) ∧
    (∀ eaa : Option Bool, eaa ≠ some true →
      actorNamesToLoad ⟨none, eaa, none⟩ = defaultActors) ∧
    (∀ (eaa : Option Bool) (fetchActors : List String → List ToolEntry),
      loadToolsFromInput ⟨none, eaa, some (.arr [])⟩ fetchActors = []) := by
  refine ⟨?_, ?_, ?_⟩
  · intro input
    rw [actorNamesToLoad, specResolvedBackendNames]
    cases ha : actorsFromField input.actors with
    | some l => simp
    | none =>
        cases hs : normalizeSelectors input.tools with
        | none => simp
        | some sels =>
            by_cases he : sels.isEmpty
            · have : sels = [] := by simpa [List.isEmpty_iff] using he
              subst this
              simp [selectorPartition]
            · simp only [he, Bool.false_eq_true, if_false, Option.isNone_some]
              by_cases hl : (selectorPartition sels).2.length > 0
              · simp [hl]
              · have : (selectorPartition sels).2 = [] := by
                  cases hnil : (selectorPartition sels).2 with
                  | nil => rfl
                  | cons a t => rw [hnil] at hl; simp at hl
                simp [hl, this]
  · intro eaa h
    have hadd : addActorEnabled ⟨none, eaa, none⟩ = false := by
      simp only [addActorEnabled, decide_eq_false_iff_not]
      exact h
    simp [actorNamesToLoad, actorsFromField, normalizeSelectors, hadd]
  · intro eaa fetchActors
    simp [loadToolsFromInput, composeBaseTools, appendActorOutputIfNeeded, actorNamesToLoad,
      normalizeSelectors, actorsFromField, dedupByName, dedupGo]

/-- Witness for C2: both fields absent resolves the default backend set. -/
theorem selector_defaults_witness :
    actorNamesToLoad ⟨none, none, none⟩ = defaultActors :=
  selector_defaults.2.1 none (by decide)

theorem dedupGo_mem {e : ToolEntry} :
    ∀ {l : List ToolEntry} {seen : List String}, e ∈ dedupGo seen l → e ∈ l := by
  intro l
  induction l with
  | nil => intro seen h; simp [dedupGo] at h
  | cons x rest ih =>
      intro seen h
      rw [dedupGo] at h
      by_cases hx : x.name ∈ seen
      · rw [if_pos hx] at h
        exact List.mem_cons_of_mem _ (ih h)
      · rw [if_neg hx] at h
        rcases List.mem_cons.mp h with h | h
        · exact h ▸ List.mem_cons_self _ _
        · exact List.mem_cons_of_mem _ (ih h)

theorem dedupGo_countP (n : String) :
    ∀ (l : List ToolEntry) (seen : List String),
      (dedupGo seen l).countP (fun e => e.name == n)
        = if n ∈ seen then 0 else (if l.any (fun e => e.name == n) then 1 else 0) := by
  intro l
  induction l with
  | nil => intro seen; simp [dedupGo]
  | cons x rest ih =>
      intro seen
      rw [dedupGo]
      by_cases hx : x.name ∈ seen
      · rw [if_pos hx, ih]
        by_cases hn : n ∈ seen
        · simp [hn]
        · have hxn : (x.name == n) = false := by
            simp only [beq_eq_false_iff_ne, ne_eq]
            intro he; exact hn (he ▸ hx)
          simp [hn, List.any_cons, hxn]
      · rw [if_neg hx, List.countP_cons, ih]
        by_cases hxn : x.name = n
        · subst hxn
          simp [hx, List.any_cons]
        · have hb : (x.name == n) = false := by simpa using hxn
          by_cases hn : n ∈ seen
          · have hn' : n ∈ x.name :: seen := List.mem_cons_of_mem _ hn
            simp [hn, hn', hb]
          · have hn' : n ∉ x.name :: seen := by
              intro hmem
              rcases List.mem_cons.mp hmem with he | he
              · exact hxn he.symm
              · exact hn he
            simp [hn, hn', hb, List.any_cons]

/-- C4: whenever the loaded tool set contains the generic call-actor tool, a
concrete Actor-backed tool, or the add-actor meta-tool, it contains the
get-actor-output tool exactly once. -/
theorem output_tool_auto_included :
    ∀ (input : Input) (fetchActors : List String → List ToolEntry),
      ((∃ e ∈ loadToolsFromInput input fetchActors, e.name = "call-actor") ∨
       (∃ e ∈ loadToolsFromInput input fetchActors, e.type = ToolType.actor) ∨
       (∃ e ∈ loadToolsFromInput input fetchActors, e.name = "add-actor")) →
      (loadToolsFromInput input fetchActors).countP
        (fun e => e.name == "get-actor-output") = 1 := by
  intro input fetchActors h
  have hload : loadToolsFromInput input fetchActors
      = dedupByName (appendActorOutputIfNeeded
          (if (actorNamesToLoad input).length > 0
           then composeBaseTools input ++ fetchActors (actorNamesToLoad input)
           else composeBaseTools input)) := rfl
  set r := (if (actorNamesToLoad input).length > 0
      then composeBaseTools input ++ fetchActors (actorNamesToLoad input)
      else composeBaseTools input) with hr
  rw [hload] at h ⊢
  by_cases ht : (r.any (fun e => e.name == "call-actor")
      || r.any (fun e => e.type == ToolType.actor)
      || r.any (fun e => e.name == "add-actor")) = true
  · have happ : appendActorOutputIfNeeded r = r ++ [getActorOutput] := by
      rw [appendActorOutputIfNeeded]
      simp only [ht, if_true]
    rw [dedupByName, happ, dedupGo_countP]
    have hany : ((r ++ [getActorOutput]).any (fun e => e.name == "get-actor-output")) = true := by
      rw [List.any_append]
      simp [getActorOutput]
    simp [hany]
  · have hf : (r.any (fun e => e.name == "call-actor")
        || r.any (fun e => e.type == ToolType.actor)
        || r.any (fun e => e.name == "add-actor")) = false := by
      simpa using ht
    have happ : appendActorOutputIfNeeded r = r := by
      rw [appendActorOutputIfNeeded]
      simp only [hf, Bool.false_eq_true, if_false]
    rw [dedupByName, happ] at h
    exfalso
    apply ht
    rcases h with ⟨e, he, hn⟩ | ⟨e, he, hty⟩ | ⟨e, he, hn⟩
    · have h1 : r.any (fun e => e.name == "call-actor") = true :=
        List.any_eq_true.mpr ⟨e, dedupGo_mem he, by simp [hn]⟩
      simp [h1]
    · have h1 : r.any (fun e => e.type == ToolType.actor) = true :=
        List.any_eq_true.mpr ⟨e, dedupGo_mem he, by simp [hty]⟩
      simp [h1]
    · have h1 : r.any (fun e => e.name == "add-actor") = true :=
        List.any_eq_true.mpr ⟨e, dedupGo_mem he, by simp [hn]⟩
      simp [h1]

/-- Witness for C4 at the default input, whose loaded set contains the
call-actor tool. -/
theorem output_tool_auto_included_witness :
    (loadToolsFromInput ⟨none, none, none⟩ (fun _ => [])).countP
      (fun e => e.name == "get-actor-output") = 1 :=
  output_tool_auto_included ⟨none, none, none⟩ (fun _ => [])
    (Or.inl ⟨callActor, by decide, rfl⟩)

end ApifyMcp
